import Mathlib

/-!
Shallow embedding of the binary-cache subsystem of the rust-skia repository
(`skia-bindings/build_support/binary_cache/binaries.rs` and
`skia-bindings/build_support/binary_cache/utils.rs`), together with proofs
about the cache-key derivation, URL templating, archive unpacking, export
gating and the proxy-fallback download logic.

External collaborators of the two files (the `cargo`, `git` and
`github_actions` modules, the `skia::BinariesConfiguration` type, the
`flate2`/`tar`/`ureq` crates, and the operating-system filesystem) are
represented by explicit parameters, oracles and a small filesystem model,
so that every function of the two source files becomes a pure, executable
Lean function.
-/

/-! ## Strings: comparison, join, sort, dedup
(the operations used by `binaries.rs::key`) -/

/-- Strict comparison of characters by code point.  Rust compares strings
byte-lexicographically over their UTF-8 encoding, which coincides with
code-point lexicographic order. -/
def charLtb (a b : Char) : Bool := Nat.blt a.toNat b.toNat

/-- Lexicographic `≤` on character lists, mirroring Rust's `str` ordering. -/
def leChars : List Char → List Char → Bool
  | [], _ => true
  | _ :: _, [] => false
  | a :: as, b :: bs =>
    if charLtb a b then true
    else if charLtb b a then false
    else leChars as bs

/-- Rust's `String` ordering as a boolean test. -/
def strLeb (a b : String) : Bool := leChars a.data b.data

/-- Insert into a sorted list (helper realising Rust `Vec::sort`). -/
def insertSorted (x : String) : List String → List String
  | [] => [x]
  | y :: ys => if strLeb x y then x :: y :: ys else y :: insertSorted x ys

/-- Rust `Vec::<String>::sort()`: ascending lexicographic sort.  Rust uses a
stable mergesort; on a total antisymmetric order any sort produces the same
(unique) sorted permutation, so insertion sort is an extensionally faithful
rendering. -/
def sortStrings : List String → List String
  | [] => []
  | x :: xs => insertSorted x (sortStrings xs)

/-- Rust `Vec::<String>::join(sep)`: concatenation with a separator between
consecutive elements (and no separator for the empty or singleton list). -/
def joinSep (sep : String) : List String → String
  | [] => ""
  | [s] => s
  | s :: s₂ :: rest => s ++ sep ++ joinSep sep (s₂ :: rest)

/-- Rust `Vec::dedup()`: removes *consecutive* repeated elements. -/
def dedupConsec : List String → List String
  | [] => []
  | [x] => [x]
  | x :: y :: rest =>
    if x = y then dedupConsec (y :: rest) else x :: dedupConsec (y :: rest)

/-- `binaries.rs::ARCHIVE_NAME`. -/
def ARCHIVE_NAME : String := "skia-binaries"

/-- `binaries.rs::key`.  The ambient queries `cargo::target().to_string()`
and `cargo::target_crt_static()` (external to the two cache files) are
passed explicitly as `cargoTarget` and `target_crt_static`.  The source's
`group` helper is the identity ("no grouping syntax ATM") and is inlined. -/
def key (cargoTarget : String) (target_crt_static : Bool)
    (repository_short_hash : String) (features : List String)
    (skia_debug : Bool) : String :=
  let featureComponent : List String :=
    if features.isEmpty then []
    else [joinSep "-" (dedupConsec (sortStrings features))]
  joinSep "-"
    ([repository_short_hash, cargoTarget] ++ featureComponent
      ++ (if target_crt_static then ["static"] else [])
      ++ (if skia_debug then ["debug"] else []))

/-- Modelled from the spec: the normalized feature segment of the key
grammar, "`features` itself is `feat1['-'feat2...]` sorted
lexicographically, duplicates removed" — here duplicates are removed first
(by `List.dedup`) and the result is then sorted, deliberately *not*
mirroring the source's sort-then-adjacent-dedup order. -/
def specFeatures (features : List String) : List String :=
  sortStrings features.dedup

/-- Modelled from the spec: the key-string grammar
`revision['-'target]['-'features]['-'"static"]['-'"debug"]`, written as
direct string concatenation of the applicable segments. -/
def specKey (cargoTarget : String) (target_crt_static : Bool)
    (repository_short_hash : String) (features : List String)
    (skia_debug : Bool) : String :=
  repository_short_hash ++ "-" ++ cargoTarget
    ++ (if features.isEmpty then "" else "-" ++ joinSep "-" (specFeatures features))
    ++ (if target_crt_static then "-static" else "")
    ++ (if skia_debug then "-debug" else "")

/-! ## String replacement and URL templating (`binaries.rs::download_url`) -/

/-- Fuel-indexed core of Rust `str::replace`: scan left to right; at each
position, if the pattern matches, emit the replacement and skip past the
match (the replacement is not rescanned); otherwise emit one character.
The fuel only needs to be at least the length of the scanned list. -/
def replaceAllAux (pat rep : List Char) : Nat → List Char → List Char
  | _, [] => []
  | 0, s => s
  | fuel + 1, c :: rest =>
    if pat.isPrefixOf (c :: rest) then
      rep ++ replaceAllAux pat rep fuel (List.drop pat.length (c :: rest))
    else
      c :: replaceAllAux pat rep fuel rest

/-- Rust `str::replace` on character lists (for a non-empty pattern): all
non-overlapping occurrences, leftmost first. -/
def replaceAll (pat rep s : List Char) : List Char :=
  replaceAllAux pat rep s.length s

/-- Rust `str::replace` on strings. -/
def strReplace (s pat rep : String) : String :=
  ⟨replaceAll pat.data rep.data s.data⟩

/-- `binaries.rs::download_url`: substitute `{tag}` first, then `{key}`. -/
def download_url (url_template : String) (tag : String) (k : String) : String :=
  strReplace (strReplace url_template "{tag}" tag) "{key}" k

/-- Whether `pat` occurs as a contiguous sublist of the second argument. -/
def containsSub (pat : List Char) : List Char → Bool
  | [] => pat.isEmpty
  | c :: rest => pat.isPrefixOf (c :: rest) || containsSub pat rest

/-! ## Export gate (`binaries.rs::should_export`)

`git::half_hash()` and `github_actions::artifact_staging_directory()` are
external environment queries; they are passed as `Option` parameters. -/

/-- A filesystem path, as a list of components. -/
abbrev FsPath := List String

/-- `binaries.rs::should_export`: `git::half_hash()?;
github_actions::artifact_staging_directory()`. -/
def should_export (half_hash : Option String)
    (artifact_staging_directory : Option FsPath) : Option FsPath :=
  match half_hash with
  | none => none
  | some _ => artifact_staging_directory

/-! ## Filesystem model

The filesystem is a flat association list from absolute paths to file
contents; directories are implicit as path prefixes.  Failures of the
operating system are injected through an oracle environment `IOEnv`: each
primitive consults its oracle and fails with the reported error, if any.
A `Rust`-style `unwrap`/`expect` on a failed operation aborts instead of
returning, modelled by the `panicAt` outcome (carrying the filesystem state
at the moment of the abort). -/

/-- Files on disk: path ↦ contents. -/
abbrev FS := List (FsPath × String)

/-- Result of an effectful operation: normal return, `io::Result::Err`, or
a process abort via `unwrap`/`expect`. -/
inductive Outcome (α : Type) where
  | ok (val : α)
  | err (e : String)
  | panicAt (fs : FS)
deriving DecidableEq

/-- Failure-injection oracles for the operating-system primitives.
`none` means the primitive succeeds, `some e` that it fails with error `e`. -/
structure IOEnv where
  extractErr : Option String
  readDirErr : FsPath → Option String
  entryErr : FsPath → Option String
  renameErr : FsPath → FsPath → Option String
  createDirErr : FsPath → Option String
  createFileErr : FsPath → Option String
  writeErr : FsPath → Option String
  copyErr : FsPath → FsPath → Option String

/-- The environment in which every OS primitive succeeds. -/
def noFail : IOEnv where
  extractErr := none
  readDirErr := fun _ => none
  entryErr := fun _ => none
  renameErr := fun _ _ => none
  createDirErr := fun _ => none
  createFileErr := fun _ => none
  writeErr := fun _ => none
  copyErr := fun _ _ => none

/-- Create or truncate a file: the new content replaces any previous entry
at the same path. -/
def writeFile (p : FsPath) (data : String) (fs : FS) : FS :=
  (p, data) :: fs.filter (fun e => e.1 != p)

/-- `fs::read_dir`: the names of the immediate children of a directory
(each once). -/
def readDirNames (d : FsPath) (fs : FS) : List String :=
  (fs.filterMap fun e =>
    if d.isPrefixOf e.1 then (e.1.drop d.length).head? else none).dedup

/-- `fs::rename`: move the file or directory subtree at `src` to `dst`. -/
def renameFS (src dst : FsPath) (fs : FS) : FS :=
  fs.map fun e =>
    if src.isPrefixOf e.1 then (dst ++ e.1.drop src.length, e.2) else e

/-- `fs::copy src dst`. -/
def copyFile (src dst : FsPath) (fs : FS) : FS :=
  writeFile dst (((fs.lookup src).getD "")) fs

/-! ## Archive codec (`binaries.rs::unpack`, `prepare_export_directory`) -/

/-- Modelled from the spec (the gzip/tar decoding lives in the external
`flate2` and `tar` crates): "extract entirely into `output_directory`" —
each archive entry (a path relative to the archive root, with contents) is
written below the output directory. -/
def extractTo (entries : List (FsPath × String)) (output_directory : FsPath)
    (fs : FS) : FS :=
  entries.foldl (fun acc e => writeFile (output_directory ++ e.1) e.2 acc) fs

/-- The `for path in paths { fs::rename(path, target_path)? }` loop of
`unpack`: move each direct child of `src` to the same name under `dst`. -/
def renameChildren (env : IOEnv) (src dst : FsPath) :
    List String → FS → Outcome FS
  | [], fs => .ok fs
  | n :: ns, fs =>
    match env.renameErr (src ++ [n]) (dst ++ [n]) with
    | some e => .err e
    | none => renameChildren env src dst ns (renameFS (src ++ [n]) (dst ++ [n]) fs)

/-- `binaries.rs::unpack`: decompress/extract the archive into
`output_directory` (`?` on failure), enumerate the children of the
`skia-binaries` subdirectory (`?` on `read_dir`, but `.unwrap()` on each
directory entry), then rename each child up one level (`?` on failure). -/
def unpack (env : IOEnv) (archive : List (FsPath × String))
    (output_directory : FsPath) (fs : FS) : Outcome FS :=
  match env.extractErr with
  | some e => .err e
  | none =>
    let fs1 := extractTo archive output_directory fs
    let binaries_dir := output_directory ++ [ARCHIVE_NAME]
    match env.readDirErr binaries_dir with
    | some e => .err e
    | none =>
      let names := readDirNames binaries_dir fs1
      if names.any (fun n => (env.entryErr (binaries_dir ++ [n])).isSome)
      then .panicAt fs1
      else renameChildren env binaries_dir output_directory names fs1

/-- `binaries.rs::prepare_export_directory`: create the `skia-binaries`
subdirectory (`?`), then for each of `tag.txt` (package version) and
`key.txt` (cache key): `fs::File::create(..).unwrap()` — a create failure
*panics* — followed by `write_all(..)?` — a write failure returns `Err`. -/
def prepare_export_directory (env : IOEnv) (package_version : String)
    (k : String) (artifacts : FsPath) (fs : FS) : Outcome (FsPath × FS) :=
  let binaries := artifacts ++ [ARCHIVE_NAME]
  match env.createDirErr binaries with
  | some e => .err e
  | none =>
    match env.createFileErr (binaries ++ ["tag.txt"]) with
    | some _ => .panicAt fs
    | none =>
      let fs1 := writeFile (binaries ++ ["tag.txt"]) "" fs
      match env.writeErr (binaries ++ ["tag.txt"]) with
      | some e => .err e
      | none =>
        let fs2 := writeFile (binaries ++ ["tag.txt"]) package_version fs1
        match env.createFileErr (binaries ++ ["key.txt"]) with
        | some _ => .panicAt fs2
        | none =>
          let fs3 := writeFile (binaries ++ ["key.txt"]) "" fs2
          match env.writeErr (binaries ++ ["key.txt"]) with
          | some e => .err e
          | none => .ok (binaries, writeFile (binaries ++ ["key.txt"]) k fs3)

/-! ## Export path (`binaries.rs::export`) -/

/-- Modelled from the spec: the fields of `skia::BinariesConfiguration`
(external to the cache files) consumed by `export` — the enabled feature
set and debug flag (inputs of `config.key`), the native output directory,
and the lists of built libraries and additional files. -/
structure BinariesConfiguration where
  features : List String
  skia_debug : Bool
  output_directory : FsPath
  ninja_built_libraries : List String
  other_built_libraries : List String
  additional_files : List String

/-- Modelled from the spec: `config.key(&half_hash)` derives the cache key
from the configuration's identity inputs via `key`. -/
def BinariesConfiguration.keyOf (config : BinariesConfiguration)
    (cargoTarget : String) (target_crt_static : Bool)
    (half_hash : String) : String :=
  key cargoTarget target_crt_static half_hash config.features config.skia_debug

/-- The `fs::copy(src, export_dir.join(dst))?` loops of `export`. -/
def copyMany (env : IOEnv) : List (FsPath × FsPath) → FS → Outcome FS
  | [], fs => .ok fs
  | (s, d) :: rest, fs =>
    match env.copyErr s d with
    | some e => .err e
    | none => copyMany env rest (copyFile s d fs)

/-- `binaries.rs::export`.  `git::half_hash().expect(..)` aborts the
process when the hash is unavailable (`panicAt`); otherwise the key is
derived, the export directory prepared, and the source files, built
libraries and additional files are copied into it.
`target.library_to_filename` is the external platform naming convention,
passed as `libFilename`. -/
def export_binaries (env : IOEnv) (cargoTarget : String)
    (target_crt_static : Bool) (package_version : String)
    (half_hash : Option String) (config : BinariesConfiguration)
    (libFilename : String → String) (source_files : List (String × String))
    (target_dir : FsPath) (fs : FS) : Outcome FS :=
  match half_hash with
  | none => .panicAt fs
  | some h =>
    let k := config.keyOf cargoTarget target_crt_static h
    match prepare_export_directory env package_version k target_dir fs with
    | .err e => .err e
    | .panicAt fs' => .panicAt fs'
    | .ok (export_dir, fs1) =>
      match copyMany env
          (source_files.map fun sd => ([sd.1], export_dir ++ [sd.2])) fs1 with
      | .err e => .err e
      | .panicAt fs' => .panicAt fs'
      | .ok fs2 =>
        match copyMany env
            (config.ninja_built_libraries.map fun lib =>
              (config.output_directory ++ [libFilename lib],
               export_dir ++ [libFilename lib])) fs2 with
        | .err e => .err e
        | .panicAt fs' => .panicAt fs'
        | .ok fs3 =>
          match copyMany env
              (config.other_built_libraries.map fun lib =>
                (config.output_directory ++ [libFilename lib],
                 export_dir ++ [libFilename lib])) fs3 with
          | .err e => .err e
          | .panicAt fs' => .panicAt fs'
          | .ok fs4 =>
            match copyMany env
                (config.additional_files.map fun file =>
                  (config.output_directory ++ [file],
                   export_dir ++ [file])) fs4 with
            | .err e => .err e
            | .panicAt fs' => .panicAt fs'
            | .ok fs5 => .ok fs5

/-! ## Remote fetcher (`utils.rs::download`) -/

/-- How the HTTP GET is routed. -/
inductive ConnMode where
  | direct
  | proxied (p : String)
deriving DecidableEq

/-- `env::var("https_proxy").or_else(|_| env::var("HTTPS_PROXY"))`: the
lowercase variable is consulted first. -/
def proxyVar : Option String → Option String → Option String
  | some v, _ => some v
  | none, upper => upper

/-- The routing decision of `utils.rs::download`: a set proxy variable that
parses (`Proxy::new`, abstracted as `parseProxy`) yields a proxied agent;
a set variable that fails to parse, or an unset variable, yields a direct
connection. -/
def connMode (lower upper : Option String)
    (parseProxy : String → Option String) : ConnMode :=
  match proxyVar lower upper with
  | some v =>
    match parseProxy v with
    | some p => .proxied p
    | none => .direct
  | none => .direct

/-- `utils.rs::download`, with the transport abstracted as `call`: perform
one GET in the chosen connection mode; a transport error is surfaced as an
`io::Error` carrying the underlying message. -/
def download (lower upper : Option String)
    (parseProxy : String → Option String)
    (call : ConnMode → String → Except String (List Nat))
    (url : String) : Except String (List Nat) :=
  match call (connMode lower upper parseProxy) url with
  | .ok data => .ok data
  | .error e => .error ("io: " ++ e)

/-- The filesystem transformation performed by a fully successful
`renameChildren` loop (used to state what `unpack` produces when no
primitive fails). -/
def applyRenames (src dst : FsPath) : List String → FS → FS
  | [], fs => fs
  | n :: ns, fs => applyRenames src dst ns (renameFS (src ++ [n]) (dst ++ [n]) fs)

/-! ## Theorems

### The string order: `strLeb` agrees with Mathlib's linear order on `String` -/

theorem charLtb_iff {a b : Char} : charLtb a b = true ↔ a < b := by
  simp only [charLtb, Nat.blt_eq]
  exact Iff.rfl

theorem charLtb_eq_false {a b : Char} (h : ¬ a < b) : charLtb a b = false := by
  rw [← Bool.not_eq_true]
  exact fun hc => h (charLtb_iff.mp hc)

theorem leChars_iff : ∀ xs ys : List Char, leChars xs ys = true ↔ ¬ List.Lex (· < ·) ys xs
  | [], ys => by
    simp only [leChars, true_iff]
    exact List.Lex.not_nil_right _ _
  | x :: xs, [] => by
    simp only [leChars]
    exact iff_of_false (by simp) (not_not_intro List.Lex.nil)
  | x :: xs, y :: ys => by
    by_cases h1 : x < y
    · simp only [leChars, charLtb_iff.mpr h1, if_true, true_iff]
      intro hlex
      cases hlex with
      | cons h => exact absurd h1 (lt_irrefl _)
      | rel h => exact absurd h1 (lt_asymm h)
    · by_cases h2 : y < x
      · simp [leChars, charLtb_eq_false h1, charLtb_iff.mpr h2]
        exact List.Lex.rel h2
      · have hxy : x = y := le_antisymm (not_lt.mp h2) (not_lt.mp h1)
        subst hxy
        simp only [leChars, charLtb_eq_false h1, Bool.false_eq_true, if_false]
        rw [leChars_iff xs ys]
        constructor
        · intro h hlex
          cases hlex with
          | cons hl => exact h hl
          | rel hr => exact absurd hr (lt_irrefl _)
        · intro h hl
          exact h (List.Lex.cons hl)

theorem strLeb_iff {a b : String} : strLeb a b = true ↔ a ≤ b := by
  rw [String.le_iff_toList_le, ← not_lt]
  exact leChars_iff a.data b.data

/-! ### Sorting: `sortStrings` is a sorted permutation -/

theorem perm_insertSorted (x : String) :
    ∀ l : List String, List.Perm (insertSorted x l) (x :: l)
  | [] => List.Perm.refl _
  | y :: ys => by
    show List.Perm (if strLeb x y then x :: y :: ys else y :: insertSorted x ys)
      (x :: y :: ys)
    by_cases hb : strLeb x y = true
    · rw [if_pos hb]
    · rw [if_neg hb]
      exact ((perm_insertSorted x ys).cons y).trans (List.Perm.swap x y ys)

theorem sorted_insertSorted {x : String} {l : List String}
    (h : l.Sorted (· ≤ ·)) : (insertSorted x l).Sorted (· ≤ ·) := by
  induction l with
  | nil => simp [insertSorted]
  | cons y ys ih =>
    rw [List.sorted_cons] at h
    obtain ⟨hy, hys⟩ := h
    show (if strLeb x y then x :: y :: ys else y :: insertSorted x ys).Sorted (· ≤ ·)
    by_cases hb : strLeb x y = true
    · rw [if_pos hb]
      have hxy : x ≤ y := strLeb_iff.mp hb
      rw [List.sorted_cons]
      refine ⟨?_, List.sorted_cons.mpr ⟨hy, hys⟩⟩
      intro b hbmem
      rcases List.mem_cons.mp hbmem with rfl | hbys
      · exact hxy
      · exact le_trans hxy (hy b hbys)
    · rw [if_neg hb]
      have hyx : y ≤ x := by
        rcases le_total x y with hxy | hyx
        · exact absurd (strLeb_iff.mpr hxy) hb
        · exact hyx
      rw [List.sorted_cons]
      refine ⟨?_, ih hys⟩
      intro b hbmem
      rcases List.mem_cons.mp ((perm_insertSorted x ys).mem_iff.mp hbmem) with rfl | hbys
      · exact hyx
      · exact hy b hbys

theorem sortStrings_perm : ∀ l : List String, List.Perm (sortStrings l) l
  | [] => List.Perm.refl _
  | x :: xs =>
    (perm_insertSorted x (sortStrings xs)).trans ((sortStrings_perm xs).cons x)

theorem sortStrings_sorted : ∀ l : List String, (sortStrings l).Sorted (· ≤ ·)
  | [] => List.sorted_nil
  | _ :: xs => sorted_insertSorted (sortStrings_sorted xs)

/-! ### Adjacent dedup on a sorted list -/

theorem mem_dedupConsec : ∀ {z : String} (l : List String), z ∈ dedupConsec l ↔ z ∈ l
  | _, [] => Iff.rfl
  | _, [_] => Iff.rfl
  | z, x :: y :: rest => by
    show z ∈ (if x = y then dedupConsec (y :: rest) else x :: dedupConsec (y :: rest)) ↔ _
    by_cases hxy : x = y
    · rw [if_pos hxy, mem_dedupConsec (y :: rest)]
      subst hxy
      simp [List.mem_cons]
    · rw [if_neg hxy]
      simp only [List.mem_cons, mem_dedupConsec (y :: rest)]

theorem dedupConsec_sorted_lt :
    ∀ {l : List String}, l.Sorted (· ≤ ·) → (dedupConsec l).Sorted (· < ·)
  | [], _ => List.sorted_nil
  | [_], _ => List.sorted_singleton _
  | x :: y :: rest, h => by
    rw [List.sorted_cons] at h
    obtain ⟨hx, hrest⟩ := h
    show (if x = y then dedupConsec (y :: rest) else x :: dedupConsec (y :: rest)).Sorted _
    by_cases hxy : x = y
    · rw [if_pos hxy]
      exact dedupConsec_sorted_lt hrest
    · rw [if_neg hxy]
      rw [List.sorted_cons]
      refine ⟨?_, dedupConsec_sorted_lt hrest⟩
      intro b hb
      have hbmem : b ∈ y :: rest := (mem_dedupConsec _).mp hb
      have hxb : x ≤ b := hx b hbmem
      rcases List.mem_cons.mp hbmem with rfl | hbrest
      · exact lt_of_le_of_ne hxb hxy
      · refine lt_of_le_of_ne hxb ?_
        intro heq
        subst heq
        have hxy_le : x ≤ y := hx y (List.mem_cons_self y rest)
        have hyx_le : y ≤ x := (List.sorted_cons.mp hrest).1 x hbrest
        exact hxy (le_antisymm hxy_le hyx_le)

theorem dedupConsec_sorted {l : List String} (h : l.Sorted (· ≤ ·)) :
    (dedupConsec l).Sorted (· ≤ ·) :=
  (dedupConsec_sorted_lt h).imp le_of_lt

theorem dedupConsec_nodup {l : List String} (h : l.Sorted (· ≤ ·)) :
    (dedupConsec l).Nodup :=
  (dedupConsec_sorted_lt h).nodup

/-- A sorted duplicate-free list of strings is determined by its members. -/
theorem sorted_nodup_eq {l₁ l₂ : List String} (s₁ : l₁.Sorted (· ≤ ·))
    (s₂ : l₂.Sorted (· ≤ ·)) (n₁ : l₁.Nodup) (n₂ : l₂.Nodup)
    (h : ∀ x, x ∈ l₁ ↔ x ∈ l₂) : l₁ = l₂ :=
  List.eq_of_perm_of_sorted ((List.perm_ext_iff_of_nodup n₁ n₂).mpr h) s₁ s₂

/-- The feature normalization of `key` depends only on the feature *set*. -/
theorem normalize_eq_of_mem_iff {l₁ l₂ : List String}
    (h : ∀ x, x ∈ l₁ ↔ x ∈ l₂) :
    dedupConsec (sortStrings l₁) = dedupConsec (sortStrings l₂) := by
  apply sorted_nodup_eq (dedupConsec_sorted (sortStrings_sorted l₁))
    (dedupConsec_sorted (sortStrings_sorted l₂))
    (dedupConsec_nodup (sortStrings_sorted l₁))
    (dedupConsec_nodup (sortStrings_sorted l₂))
  intro x
  rw [mem_dedupConsec, mem_dedupConsec, (sortStrings_perm l₁).mem_iff,
    (sortStrings_perm l₂).mem_iff]
  exact h x

/-- Sort-then-adjacent-dedup (the source) equals dedup-then-sort (the spec
formulation). -/
theorem normalize_eq_spec (l : List String) :
    dedupConsec (sortStrings l) = specFeatures l := by
  apply sorted_nodup_eq (dedupConsec_sorted (sortStrings_sorted l))
    (sortStrings_sorted l.dedup)
    (dedupConsec_nodup (sortStrings_sorted l))
    ((sortStrings_perm l.dedup).nodup_iff.mpr l.nodup_dedup)
  intro x
  rw [mem_dedupConsec, (sortStrings_perm l).mem_iff,
    (sortStrings_perm l.dedup).mem_iff, List.mem_dedup]

/-! ### Joining components -/

theorem strAppend_assoc (a b c : String) : a ++ b ++ c = a ++ (b ++ c) :=
  String.ext (by simp [String.data_append, List.append_assoc])

/-- The cache key built by the source's push-then-join equals the spec's
grammar concatenation. -/
theorem key_eq_specKey (cargoTarget : String) (cs : Bool) (rev : String)
    (features : List String) (dbg : Bool) :
    key cargoTarget cs rev features dbg = specKey cargoTarget cs rev features dbg := by
  simp only [key, specKey]
  rw [normalize_eq_spec]
  have hs : ("-static" : String) = "-" ++ "static" := rfl
  have hd : ("-debug" : String) = "-" ++ "debug" := rfl
  rcases features with _ | ⟨f, fs⟩
  · cases cs <;> cases dbg <;>
      simp [joinSep, strAppend_assoc, String.append_empty, hs, hd]
  · simp only [List.isEmpty_cons, Bool.false_eq_true, if_false]
    cases cs <;> cases dbg <;>
      simp [joinSep, strAppend_assoc, String.append_empty, hs, hd]

/-- C1: the key function joins, with `-`, exactly: the revision; the target
triple; the sorted de-duplicated feature list (only if non-empty); the
token `static` (only if static CRT); the token `debug` (only if a debug
build) — in this fixed order; and the concrete end-to-end scenario of the
spec evaluates as claimed. -/
theorem C1_key_structure :
    (∀ (cargoTarget : String) (cs : Bool) (rev : String)
        (features : List String) (dbg : Bool),
      key cargoTarget cs rev features dbg = specKey cargoTarget cs rev features dbg)
    ∧ key "x86_64-pc-windows-msvc" true "a1b2c3d4" ["gl", "vulkan"] false
        = "a1b2c3d4-x86_64-pc-windows-msvc-gl-vulkan-static" :=
  ⟨key_eq_specKey, by decide⟩

/-- C2: the key depends on the feature list only through its set of
elements — byte-identical keys for feature lists equal as sets — and the
concrete reversed-order scenario yields the identical key. -/
theorem C2_key_feature_set_invariant :
    (∀ (cargoTarget : String) (cs : Bool) (rev : String) (dbg : Bool)
        (f₁ f₂ : List String), (∀ x, x ∈ f₁ ↔ x ∈ f₂) →
      key cargoTarget cs rev f₁ dbg = key cargoTarget cs rev f₂ dbg)
    ∧ key "x86_64-pc-windows-msvc" true "a1b2c3d4" ["vulkan", "gl"] false
        = key "x86_64-pc-windows-msvc" true "a1b2c3d4" ["gl", "vulkan"] false := by
  constructor
  · intro t cs rev dbg f₁ f₂ h
    have hemp : f₁.isEmpty = f₂.isEmpty := by
      rcases f₁ with _ | ⟨a, f₁⟩ <;> rcases f₂ with _ | ⟨b, f₂⟩
      · rfl
      · exact absurd ((h b).mpr (List.mem_cons_self b f₂)) (List.not_mem_nil b)
      · exact absurd ((h a).mp (List.mem_cons_self a f₁)) (List.not_mem_nil a)
      · rfl
    simp only [key, hemp, normalize_eq_of_mem_iff h]
  · decide

theorem C2_key_feature_set_invariant_witness :
    key "t" false "r" ["b", "a", "b"] false = key "t" false "r" ["a", "b"] false :=
  C2_key_feature_set_invariant.1 "t" false "r" false ["b", "a", "b"] ["a", "b"]
    (by intro x; simp [List.mem_cons]; tauto)

/-! ### Characters of the derived key (C8) -/

theorem mem_data_joinSep :
    ∀ (l : List String) (c : Char), c ∈ (joinSep "-" l).data →
      c = '-' ∨ ∃ s ∈ l, c ∈ s.data
  | [], c, h => by simp [joinSep] at h
  | [s], c, h => Or.inr ⟨s, List.mem_cons_self s [], h⟩
  | s :: s₂ :: rest, c, h => by
    rw [show joinSep "-" (s :: s₂ :: rest) = s ++ "-" ++ joinSep "-" (s₂ :: rest)
      from rfl] at h
    simp only [String.data_append, List.mem_append] at h
    rcases h with (h | h) | h
    · exact Or.inr ⟨s, List.mem_cons_self s _, h⟩
    · left
      simpa using h
    · rcases mem_data_joinSep (s₂ :: rest) c h with h | ⟨t, ht, hc⟩
      · exact Or.inl h
      · exact Or.inr ⟨t, List.mem_cons_of_mem _ ht, hc⟩

theorem static_chars {c : Char} (h : c ∈ ("static" : String).data) :
    c ∈ ("-staticdebug" : String).data := by
  have h' : c ∈ ['s', 't', 'a', 't', 'i', 'c'] := h
  fin_cases h' <;> decide

theorem debug_chars {c : Char} (h : c ∈ ("debug" : String).data) :
    c ∈ ("-staticdebug" : String).data := by
  have h' : c ∈ ['d', 'e', 'b', 'u', 'g'] := h
  fin_cases h' <;> decide

/-- C8 (amended): every character of the derived key appears in the
revision, the target triple, or one of the feature names, or is one of the
characters introduced by the key function itself — the separator `-` and
the letters of the literal tokens `static` and `debug`.  (The key function
performs no sanitization of its inputs.) -/
theorem C8_key_charset (cargoTarget : String) (cs : Bool) (rev : String)
    (features : List String) (dbg : Bool) (c : Char)
    (hc : c ∈ (key cargoTarget cs rev features dbg).data) :
    c ∈ rev.data ∨ c ∈ cargoTarget.data ∨ (∃ f ∈ features, c ∈ f.data)
      ∨ c ∈ ("-staticdebug" : String).data := by
  simp only [key] at hc
  rcases mem_data_joinSep _ c hc with rfl | ⟨s, hs, hcs⟩
  · right; right; right
    decide
  · rcases List.mem_append.mp hs with hs | hs
    · rcases List.mem_append.mp hs with hs | hs
      · rcases List.mem_append.mp hs with hs | hs
        · rcases List.mem_cons.mp hs with rfl | hs
          · exact Or.inl hcs
          · rcases List.mem_cons.mp hs with rfl | hs
            · exact Or.inr (Or.inl hcs)
            · exact absurd hs (List.not_mem_nil s)
        · by_cases hf : features.isEmpty
          · rw [if_pos hf] at hs
            exact absurd hs (List.not_mem_nil s)
          · rw [if_neg hf] at hs
            rcases List.mem_cons.mp hs with rfl | hs
            · rcases mem_data_joinSep _ c hcs with rfl | ⟨g, hg, hcg⟩
              · right; right; right
                decide
              · refine Or.inr (Or.inr (Or.inl ⟨g, ?_, hcg⟩))
                exact (sortStrings_perm features).mem_iff.mp
                  ((mem_dedupConsec _).mp hg)
            · exact absurd hs (List.not_mem_nil s)
      · by_cases hcs' : cs
        · rw [if_pos hcs'] at hs
          rcases List.mem_cons.mp hs with rfl | hs
          · exact Or.inr (Or.inr (Or.inr (static_chars hcs)))
          · exact absurd hs (List.not_mem_nil s)
        · rw [if_neg hcs'] at hs
          exact absurd hs (List.not_mem_nil s)
    · by_cases hdbg : dbg
      · rw [if_pos hdbg] at hs
        rcases List.mem_cons.mp hs with rfl | hs
        · exact Or.inr (Or.inr (Or.inr (debug_chars hcs)))
        · exact absurd hs (List.not_mem_nil s)
      · rw [if_neg hdbg] at hs
        exact absurd hs (List.not_mem_nil s)

theorem C8_key_charset_witness :
    's' ∈ ("rev" : String).data ∨ 's' ∈ ("tgt" : String).data
      ∨ (∃ f ∈ ([] : List String), 's' ∈ f.data)
      ∨ 's' ∈ ("-staticdebug" : String).data :=
  C8_key_charset "tgt" true "rev" [] false 's' (by decide)

/-- C8 (counterexample to the claim as stated): the key function inserts
feature names verbatim, so a feature containing `(` and `)` puts those
forbidden characters into the derived key. -/
theorem C8_key_no_sanitization_counterexample :
    key "t" false "r" ["(x)"] false = "r-t-(x)"
      ∧ '(' ∈ (key "t" false "r" ["(x)"] false).data := by
  constructor <;> decide

/-! ### Export gate (C3) -/

/-- C3: `should_export` returns nothing when the revision hash is
unavailable (regardless of the staging directory), nothing when the staging
directory is not configured (regardless of the revision), and the staging
directory exactly when both are present. -/
theorem C3_should_export_gate (half_hash : Option String)
    (staging : Option FsPath) :
    (half_hash = none → should_export half_hash staging = none)
    ∧ (staging = none → should_export half_hash staging = none)
    ∧ (∀ h : String, half_hash = some h → should_export half_hash staging = staging) := by
  refine ⟨?_, ?_, ?_⟩
  · rintro rfl
    rfl
  · rintro rfl
    cases half_hash <;> rfl
  · rintro h rfl
    rfl

theorem C3_should_export_gate_witness :
    should_export (some "abcd1234") (some ["staging"]) = some ["staging"] :=
  (C3_should_export_gate (some "abcd1234") (some ["staging"])).2.2 "abcd1234" rfl

/-! ### URL templating (C6, C9) -/

theorem isPrefixOf_self {α : Type} [BEq α] [LawfulBEq α] :
    ∀ l : List α, l.isPrefixOf l = true
  | [] => rfl
  | c :: rest => by simp [List.isPrefixOf, isPrefixOf_self rest]

theorem replaceAllAux_of_not_contains {pat rep : List Char} :
    ∀ (fuel : Nat) (s : List Char), containsSub pat s = false →
      replaceAllAux pat rep fuel s = s
  | fuel, [], _ => by cases fuel <;> rfl
  | 0, _ :: _, _ => rfl
  | fuel + 1, c :: rest, h => by
    rw [containsSub, Bool.or_eq_false_iff] at h
    show (if pat.isPrefixOf (c :: rest) then _ else
      c :: replaceAllAux pat rep fuel rest) = c :: rest
    rw [if_neg (by simp [h.1]), replaceAllAux_of_not_contains fuel rest h.2]

theorem replaceAll_of_not_contains {pat rep s : List Char}
    (h : containsSub pat s = false) : replaceAll pat rep s = s :=
  replaceAllAux_of_not_contains s.length s h

/-- Replacing a non-empty pattern inside exactly the pattern yields exactly
the replacement. -/
theorem replaceAll_pat_self (rep : List Char) :
    ∀ (pat : List Char), pat ≠ [] → replaceAll pat rep pat = rep := by
  rintro (_ | ⟨c, rest⟩) hne
  · exact absurd rfl hne
  · show replaceAllAux _ _ (c :: rest).length (c :: rest) = rep
    rw [List.length_cons]
    show (if (c :: rest).isPrefixOf (c :: rest) then
        rep ++ replaceAllAux (c :: rest) rep rest.length
          (List.drop (c :: rest).length (c :: rest))
      else _) = rep
    rw [if_pos (isPrefixOf_self (c :: rest)), List.drop_length]
    show rep ++ replaceAllAux (c :: rest) rep rest.length [] = rep
    rw [show replaceAllAux (c :: rest) rep rest.length [] = [] from by
      cases rest.length <;> rfl]
    exact List.append_nil rep

/-- C6: `download_url` replaces every occurrence of the literal `{tag}` by
the tag and every occurrence of `{key}` by the key; a template containing
neither placeholder passes through unchanged, and the spec's concrete
scenario (plus a repeated-placeholder instance) evaluates as claimed. -/
theorem C6_download_url_substitution :
    (∀ t tag k : String, containsSub ("{tag}".data) t.data = false →
        containsSub ("{key}".data) t.data = false →
        download_url t tag k = t)
    ∧ download_url "https://example/{tag}/{key}.tar.gz" "0.9.1" "abc-static"
        = "https://example/0.9.1/abc-static.tar.gz"
    ∧ download_url "{tag}-{tag}/{key}{key}" "T" "K" = "T-T/KK" := by
  refine ⟨?_, by decide, by decide⟩
  intro t tag k h1 h2
  show strReplace (strReplace t "{tag}" tag) "{key}" k = t
  unfold strReplace
  rw [replaceAll_of_not_contains h1]
  show (⟨replaceAll ("{key}".data) k.data t.data⟩ : String) = t
  rw [replaceAll_of_not_contains h2]

theorem C6_download_url_substitution_witness :
    download_url "https://host/archive.tar.gz" "0.9.1" "abc" = "https://host/archive.tar.gz" :=
  C6_download_url_substitution.1 "https://host/archive.tar.gz" "0.9.1" "abc"
    (by decide) (by decide)

/-- C9: the `{tag}` substitution runs over the whole template before the
`{key}` substitution, so `{key}` text contributed by the tag value is
substituted as well: instantiating the template `{tag}` yields the tag with
the `{key}` replacement applied to it. -/
theorem C9_tag_substituted_before_key :
    (∀ tag k : String, download_url "{tag}" tag k = strReplace tag "{key}" k)
    ∧ download_url "{tag}" "x{key}y" "K" = "xKy" := by
  refine ⟨?_, by decide⟩
  intro tag k
  show strReplace (strReplace "{tag}" "{tag}" tag) "{key}" k = _
  have hself : strReplace "{tag}" "{tag}" tag = tag := by
    unfold strReplace
    rw [replaceAll_pat_self _ _ (by decide)]
  rw [hself]

/-! ### Remote fetcher proxy fallback (C7) -/

/-- C7: a set proxy variable (lowercase consulted before uppercase) whose
value fails to parse yields a direct, non-proxied GET, and `download`
behaves exactly as with no proxy variable set. -/
theorem C7_malformed_proxy_direct (lower upper : Option String)
    (parseProxy : String → Option String)
    (call : ConnMode → String → Except String (List Nat)) (url : String)
    (v : String) (hv : proxyVar lower upper = some v)
    (hp : parseProxy v = none) :
    connMode lower upper parseProxy = ConnMode.direct
    ∧ download lower upper parseProxy call url
        = download none none parseProxy call url := by
  have hc : connMode lower upper parseProxy = ConnMode.direct := by
    unfold connMode
    rw [hv]
    show (match parseProxy v with
      | some p => ConnMode.proxied p
      | none => ConnMode.direct) = ConnMode.direct
    rw [hp]
  refine ⟨hc, ?_⟩
  unfold download
  rw [hc]
  rfl

theorem C7_malformed_proxy_direct_witness :
    connMode (some "not a proxy url") none (fun _ => none) = ConnMode.direct
    ∧ download (some "not a proxy url") none (fun _ => none)
        (fun _ _ => .ok [7, 7]) "https://host/a"
      = download none none (fun _ => none) (fun _ _ => .ok [7, 7]) "https://host/a" :=
  C7_malformed_proxy_direct (some "not a proxy url") none (fun _ => none)
    (fun _ _ => .ok [7, 7]) "https://host/a" "not a proxy url" rfl rfl

/-! ### Export precondition (C10) -/

/-- C10: `export` re-checks nothing: with an unavailable revision hash it
aborts through `expect` (a panic), not through an `io::Result` error, and
does so before touching any file — the filesystem at the abort is the
initial one. -/
theorem C10_export_panics_without_revision (env : IOEnv) (cargoTarget : String)
    (cs : Bool) (version : String) (config : BinariesConfiguration)
    (libFilename : String → String) (source_files : List (String × String))
    (target_dir : FsPath) (fs : FS) :
    export_binaries env cargoTarget cs version none config libFilename
      source_files target_dir fs = Outcome.panicAt fs := rfl

/-! ### Path prefixes -/

theorem isPrefixOf_append_self {α : Type} [BEq α] [LawfulBEq α] :
    ∀ l m : List α, l.isPrefixOf (l ++ m) = true
  | [], _ => by simp
  | a :: l, m => by simp [List.isPrefixOf, isPrefixOf_append_self l m]

theorem isPrefixOf_append_cancel {α : Type} [BEq α] [LawfulBEq α] :
    ∀ (d l m : List α), (d ++ l).isPrefixOf (d ++ m) = l.isPrefixOf m
  | [], _, _ => rfl
  | a :: d, l, m => by simp [List.isPrefixOf, isPrefixOf_append_cancel d l m]

theorem isPrefixOf_of_append {α : Type} [BEq α] [LawfulBEq α] :
    ∀ (l m p : List α), (l ++ m).isPrefixOf p = true → l.isPrefixOf p = true
  | [], _, _, _ => by simp
  | a :: l, m, [], h => by simp [List.isPrefixOf] at h
  | a :: l, m, b :: p, h => by
    simp only [List.cons_append, List.isPrefixOf, Bool.and_eq_true, beq_iff_eq] at h ⊢
    exact ⟨h.1, isPrefixOf_of_append l m p h.2⟩

theorem eq_append_drop_of_isPrefixOf {α : Type} [BEq α] [LawfulBEq α] :
    ∀ (l p : List α), l.isPrefixOf p = true → p = l ++ p.drop l.length
  | [], _, _ => rfl
  | a :: l, [], h => by simp [List.isPrefixOf] at h
  | a :: l, b :: p, h => by
    simp only [List.isPrefixOf, Bool.and_eq_true, beq_iff_eq] at h
    obtain ⟨rfl, h2⟩ := h
    simp only [List.length_cons, List.drop_succ_cons, List.cons_append,
      List.cons.injEq, true_and]
    exact eq_append_drop_of_isPrefixOf l p h2

theorem isPrefixOf_append_cons_ne {α : Type} [BEq α] [LawfulBEq α]
    (d : List α) {x y : α} (l m : List α) (h : x ≠ y) :
    (d ++ x :: l).isPrefixOf (d ++ y :: m) = false := by
  rw [isPrefixOf_append_cancel]
  simp [List.isPrefixOf, h]

/-! ### The filesystem primitives -/

theorem mem_writeFile_self (p : FsPath) (d : String) (fs : FS) :
    (p, d) ∈ writeFile p d fs :=
  List.mem_cons_self _ _

theorem mem_writeFile_of_ne {e : FsPath × String} {p : FsPath} {d : String}
    {fs : FS} (hne : e.1 ≠ p) (h : e ∈ fs) : e ∈ writeFile p d fs := by
  apply List.mem_cons_of_mem
  exact List.mem_filter.mpr ⟨h, by simp [bne_iff_ne, hne]⟩

theorem mem_writeFile_elim {e : FsPath × String} {p : FsPath} {d : String}
    {fs : FS} (h : e ∈ writeFile p d fs) : e = (p, d) ∨ e ∈ fs := by
  rcases List.mem_cons.mp h with h | h
  · exact Or.inl h
  · exact Or.inr (List.mem_filter.mp h).1

theorem mem_extractTo_of_stable {e : FsPath × String} :
    ∀ (entries : List (FsPath × String)) (out : FsPath) (acc : FS),
      e ∈ acc → (∀ q ∈ entries, e.1 ≠ out ++ q.1) →
      e ∈ extractTo entries out acc
  | [], _, _, he, _ => he
  | (p, d) :: tl, out, acc, he, hq => by
    show _ ∈ extractTo tl out (writeFile (out ++ p) d acc)
    exact mem_extractTo_of_stable tl out _
      (mem_writeFile_of_ne (hq (p, d) (List.mem_cons_self _ _)) he)
      (fun q hqtl => hq q (List.mem_cons_of_mem _ hqtl))

theorem mem_extractTo_of_mem {p : FsPath} {d : String} :
    ∀ (entries : List (FsPath × String)) (out : FsPath) (acc : FS),
      (p, d) ∈ entries →
      (entries.map Prod.fst).Nodup → (out ++ p, d) ∈ extractTo entries out acc
  | [], _, _, h, _ => absurd h (List.not_mem_nil _)
  | (q, d') :: tl, out, acc, hmem, hnodup => by
    show _ ∈ extractTo tl out (writeFile (out ++ q) d' acc)
    rcases List.mem_cons.mp hmem with heq | htl
    · injection heq with h1 h2
      subst h1
      subst h2
      apply mem_extractTo_of_stable tl out _ (mem_writeFile_self _ _ _)
      intro e he hc
      rw [List.map_cons] at hnodup
      apply (List.nodup_cons.mp hnodup).1
      have hpe : p = e.1 := List.append_cancel_left hc
      have hme : Prod.fst e ∈ tl.map Prod.fst := List.mem_map_of_mem Prod.fst he
      rwa [← hpe] at hme
    · apply mem_extractTo_of_mem tl out _ htl
      rw [List.map_cons] at hnodup
      exact (List.nodup_cons.mp hnodup).2

theorem mem_extractTo_elim {e : FsPath × String} :
    ∀ (entries : List (FsPath × String)) (out : FsPath) (acc : FS),
      e ∈ extractTo entries out acc →
      e ∈ acc ∨ ∃ p d, (p, d) ∈ entries ∧ e = (out ++ p, d)
  | [], _, _, h => Or.inl h
  | (q, d') :: tl, out, acc, h => by
    rcases mem_extractTo_elim tl out _ h with h | ⟨p, d, hp, he⟩
    · rcases mem_writeFile_elim h with h | h
      · exact Or.inr ⟨q, d', List.mem_cons_self _ _, h⟩
      · exact Or.inl h
    · exact Or.inr ⟨p, d, List.mem_cons_of_mem _ hp, he⟩

theorem mem_readDirNames {d : FsPath} {fs : FS} {e : FsPath × String}
    {n : String} {rest : FsPath} (he : e ∈ fs) (hp : e.1 = d ++ n :: rest) :
    n ∈ readDirNames d fs := by
  unfold readDirNames
  rw [List.mem_dedup]
  apply List.mem_filterMap.mpr
  refine ⟨e, he, ?_⟩
  rw [hp, if_pos (isPrefixOf_append_self d (n :: rest)), List.drop_left]
  rfl

theorem readDirNames_eq_nil {d : FsPath} {fs : FS}
    (h : ∀ e ∈ fs, d.isPrefixOf e.1 = false) : readDirNames d fs = [] := by
  unfold readDirNames
  rw [List.dedup_eq_nil, List.filterMap_eq_nil_iff]
  intro e he
  rw [h e he]
  rfl

/-! ### The rename loop -/

theorem renameChildren_noFail (src dst : FsPath) :
    ∀ (ns : List String) (fs : FS),
      renameChildren noFail src dst ns fs
        = Outcome.ok (applyRenames src dst ns fs)
  | [], _ => rfl
  | n :: ns, fs =>
    renameChildren_noFail src dst ns (renameFS (src ++ [n]) (dst ++ [n]) fs)

theorem mem_renameFS_of_stable {e : FsPath × String} {src dst : FsPath}
    {fs : FS} (he : e ∈ fs) (h : src.isPrefixOf e.1 = false) :
    e ∈ renameFS src dst fs := by
  unfold renameFS
  have hmap : (if src.isPrefixOf e.1 then (dst ++ e.1.drop src.length, e.2) else e)
      ∈ fs.map (fun e' =>
        if src.isPrefixOf e'.1 then (dst ++ e'.1.drop src.length, e'.2) else e') :=
    List.mem_map_of_mem _ he
  rwa [if_neg (by simp [h])] at hmap

theorem mem_renameFS_moved {src dst : FsPath} {fs : FS} {rest : FsPath}
    {d : String} (he : (src ++ rest, d) ∈ fs) :
    (dst ++ rest, d) ∈ renameFS src dst fs := by
  unfold renameFS
  have hmap : (if src.isPrefixOf (src ++ rest) then
      (dst ++ (src ++ rest).drop src.length, d) else (src ++ rest, d))
      ∈ fs.map (fun e' =>
        if src.isPrefixOf e'.1 then (dst ++ e'.1.drop src.length, e'.2) else e') :=
    List.mem_map_of_mem _ he
  rw [if_pos (isPrefixOf_append_self src rest)] at hmap
  simpa [List.drop_left] using hmap

theorem renameFS_mem_elim {src dst : FsPath} {fs : FS} {f : FsPath × String}
    (hf : f ∈ renameFS src dst fs) :
    ∃ e ∈ fs, (src.isPrefixOf e.1 = false ∧ f = e) ∨
      (∃ rest, e.1 = src ++ rest ∧ f = (dst ++ rest, e.2)) := by
  obtain ⟨e, he, hfe⟩ := List.mem_map.mp hf
  refine ⟨e, he, ?_⟩
  by_cases hp : src.isPrefixOf e.1 = true
  · right
    refine ⟨e.1.drop src.length, eq_append_drop_of_isPrefixOf _ _ hp, ?_⟩
    rw [← hfe, if_pos hp]
  · left
    refine ⟨?_, ?_⟩
    · rw [← Bool.not_eq_true]
      exact hp
    · rw [← hfe, if_neg hp]

theorem mem_applyRenames_of_stable {e : FsPath × String} (src dst : FsPath) :
    ∀ (ns : List String) (fs : FS), e ∈ fs → src.isPrefixOf e.1 = false →
      e ∈ applyRenames src dst ns fs
  | [], _, he, _ => he
  | n :: ns, fs, he, hpre => by
    show e ∈ applyRenames src dst ns (renameFS (src ++ [n]) (dst ++ [n]) fs)
    apply mem_applyRenames_of_stable src dst ns _ ?_ hpre
    apply mem_renameFS_of_stable he
    rw [← Bool.not_eq_true]
    intro hc
    rw [isPrefixOf_of_append src [n] e.1 hc] at hpre
    cases hpre

theorem mem_applyRenames_moved {d : String} (src dst : FsPath) :
    ∀ (ns : List String) (fs : FS) (n : String) (rest : FsPath),
      n ∈ ns → (src ++ n :: rest, d) ∈ fs →
      src.isPrefixOf (dst ++ n :: rest) = false →
      (dst ++ n :: rest, d) ∈ applyRenames src dst ns fs
  | [], _, _, _, hn, _, _ => absurd hn (List.not_mem_nil _)
  | m :: ns, fs, n, rest, hn, he, hdst => by
    show (dst ++ n :: rest, d)
      ∈ applyRenames src dst ns (renameFS (src ++ [m]) (dst ++ [m]) fs)
    by_cases hmn : m = n
    · subst hmn
      have he' : ((src ++ [m]) ++ rest, d) ∈ fs := by
        rwa [List.append_assoc, List.singleton_append]
      have hmoved : ((dst ++ [m]) ++ rest, d)
          ∈ renameFS (src ++ [m]) (dst ++ [m]) fs := mem_renameFS_moved he'
      rw [List.append_assoc, List.singleton_append] at hmoved
      exact mem_applyRenames_of_stable src dst ns _ hmoved hdst
    · have hn' : n ∈ ns := by
        rcases List.mem_cons.mp hn with rfl | hn'
        · exact absurd rfl hmn
        · exact hn'
      apply mem_applyRenames_moved src dst ns _ n rest hn' ?_ hdst
      apply mem_renameFS_of_stable he
      show (src ++ [m]).isPrefixOf (src ++ n :: rest) = false
      rw [isPrefixOf_append_cancel]
      simp [List.isPrefixOf, hmn]

theorem mem_applyRenames_src_free (src dst : FsPath) :
    ∀ (ns : List String) (fs : FS),
      (∀ e ∈ fs, src.isPrefixOf e.1 = false ∨
        ∃ n rest, n ∈ ns ∧ e.1 = src ++ n :: rest ∧
          src.isPrefixOf (dst ++ n :: rest) = false) →
      ∀ f ∈ applyRenames src dst ns fs, src.isPrefixOf f.1 = false
  | [], fs, hinv, f, hf => by
    rcases hinv f hf with h | ⟨n, _, hn, _, _⟩
    · exact h
    · exact absurd hn (List.not_mem_nil _)
  | m :: ns, fs, hinv, f, hf => by
    apply mem_applyRenames_src_free src dst ns
      (renameFS (src ++ [m]) (dst ++ [m]) fs) ?_ f hf
    intro g hg
    obtain ⟨e, he, hcase⟩ := renameFS_mem_elim hg
    rcases hcase with ⟨hnp, hge⟩ | ⟨rest2, hpath, hge⟩
    · rcases hinv e he with h | ⟨n, rest, hn, hEq, hdst⟩
      · rw [hge]
        exact Or.inl h
      · have hmn : m ≠ n := by
          intro hmnEq
          subst hmnEq
          rw [hEq, show (src ++ m :: rest : FsPath) = (src ++ [m]) ++ rest by
            rw [List.append_assoc, List.singleton_append],
            isPrefixOf_append_self] at hnp
          cases hnp
        have hn2 : n ∈ ns := by
          rcases List.mem_cons.mp hn with hnEq | hn2
          · exact absurd hnEq.symm hmn
          · exact hn2
        rw [hge]
        exact Or.inr ⟨n, rest, hn2, hEq, hdst⟩
    · rcases hinv e he with h | ⟨n, rest, hn, hEq, hdst⟩
      · rw [hpath, List.append_assoc, isPrefixOf_append_self] at h
        cases h
      · have h1 : src ++ n :: rest = src ++ m :: rest2 := by
          rw [← hEq, hpath, List.append_assoc, List.singleton_append]
        have hcomb := List.append_cancel_left h1
        injection hcomb with hnm hrest
        subst hnm
        subst hrest
        rw [hge]
        apply Or.inl
        show src.isPrefixOf ((dst ++ [n]) ++ rest) = false
        rw [List.append_assoc, List.singleton_append]
        exact hdst

/-! ### Unpack under a failure-free environment (C4) -/

theorem any_false_fun (l : List String) : (l.any fun _ => false) = false := by
  induction l with
  | nil => rfl
  | cons a l ih => simp [List.any, ih]

theorem unpack_noFail (archive : List (FsPath × String)) (out : FsPath)
    (fs : FS) :
    unpack noFail archive out fs = Outcome.ok
      (applyRenames (out ++ [ARCHIVE_NAME]) out
        (readDirNames (out ++ [ARCHIVE_NAME]) (extractTo archive out fs))
        (extractTo archive out fs)) := by
  unfold unpack
  simp only [noFail, Option.isSome_none, any_false_fun, Bool.false_eq_true,
    if_false]
  exact renameChildren_noFail _ _ _ _

/-- C4: for an archive whose entries all live inside a single root
directory `skia-binaries` (with no nested `skia-binaries` as the second
component and distinct entry paths), unpacking into a fresh directory `D`
succeeds, every entry ends up directly under `D` (its root component
stripped), and `D/skia-binaries` is left without any children. -/
theorem C4_unpack_flattens (archive : List (FsPath × String)) (D : FsPath)
    (fs : FS)
    (hroot : ∀ e ∈ archive, e.1.head? = some ARCHIVE_NAME)
    (hlen : ∀ e ∈ archive, 2 ≤ e.1.length)
    (hnest : ∀ e ∈ archive, (e.1.drop 1).head? ≠ some ARCHIVE_NAME)
    (hnodup : (archive.map Prod.fst).Nodup)
    (hfresh : ∀ e ∈ fs, D.isPrefixOf e.1 = false) :
    ∃ fs2, unpack noFail archive D fs = Outcome.ok fs2
      ∧ (∀ e ∈ archive, (D ++ e.1.drop 1, e.2) ∈ fs2)
      ∧ readDirNames (D ++ [ARCHIVE_NAME]) fs2 = [] := by
  have hshape : ∀ e ∈ archive,
      ∃ n rest, e.1 = ARCHIVE_NAME :: n :: rest ∧ n ≠ ARCHIVE_NAME := by
    intro e he
    have h1 := hroot e he
    have h2 := hlen e he
    have h3 := hnest e he
    rcases hp : e.1 with _ | ⟨a, tail⟩
    · rw [hp] at h1
      cases h1
    · rcases ht : tail with _ | ⟨n, rest⟩
      · rw [hp, ht] at h2
        simp at h2
      · rw [hp] at h1
        simp only [List.head?_cons, Option.some.injEq] at h1
        rw [hp, ht] at h3
        simp only [List.drop_succ_cons, List.drop_zero, List.head?_cons,
          ne_eq, Option.some.injEq] at h3
        exact ⟨n, rest, by rw [h1], h3⟩
  have hdstF : ∀ n : String, n ≠ ARCHIVE_NAME → ∀ rest : FsPath,
      (D ++ [ARCHIVE_NAME]).isPrefixOf (D ++ n :: rest) = false := by
    intro n hne rest
    rw [isPrefixOf_append_cancel D [ARCHIVE_NAME] (n :: rest)]
    simp [List.isPrefixOf, Ne.symm hne]
  refine ⟨_, unpack_noFail archive D fs, ?_, ?_⟩
  · intro e he
    obtain ⟨n, rest, hp, hne⟩ := hshape e he
    have hfs1 : (D ++ e.1, e.2) ∈ extractTo archive D fs :=
      mem_extractTo_of_mem archive D fs he hnodup
    have hsplit : D ++ e.1 = (D ++ [ARCHIVE_NAME]) ++ n :: rest := by
      rw [hp, List.append_assoc, List.singleton_append]
    rw [hsplit] at hfs1
    have hnames : n ∈ readDirNames (D ++ [ARCHIVE_NAME]) (extractTo archive D fs) :=
      mem_readDirNames hfs1 rfl
    have hmove := mem_applyRenames_moved (D ++ [ARCHIVE_NAME]) D
      (readDirNames (D ++ [ARCHIVE_NAME]) (extractTo archive D fs))
      (extractTo archive D fs) n rest hnames hfs1 (hdstF n hne rest)
    rw [hp]
    simpa using hmove
  · apply readDirNames_eq_nil
    intro f hf
    apply mem_applyRenames_src_free (D ++ [ARCHIVE_NAME]) D _ _ ?_ f hf
    intro e he
    rcases mem_extractTo_elim archive D fs he with hfs | ⟨p, d2, hpArch, hEq⟩
    · left
      rw [← Bool.not_eq_true]
      intro hc
      have hDpre := isPrefixOf_of_append D [ARCHIVE_NAME] e.1 hc
      rw [hfresh e hfs] at hDpre
      cases hDpre
    · obtain ⟨n, rest, hp, hne⟩ := hshape (p, d2) hpArch
      have hpp : p = ARCHIVE_NAME :: n :: rest := hp
      right
      have hfs1 : (D ++ p, d2) ∈ extractTo archive D fs :=
        mem_extractTo_of_mem archive D fs hpArch hnodup
      have hsplit : D ++ p = (D ++ [ARCHIVE_NAME]) ++ n :: rest := by
        rw [hpp, List.append_assoc, List.singleton_append]
      refine ⟨n, rest, ?_, ?_, hdstF n hne rest⟩
      · rw [hsplit] at hfs1
        exact mem_readDirNames hfs1 rfl
      · rw [hEq]
        exact hsplit

theorem C4_unpack_flattens_witness :
    ∃ fs2, unpack noFail
        [([ARCHIVE_NAME, "a.lib"], "AA"), ([ARCHIVE_NAME, "tag.txt"], "T")]
        ["D"] [] = Outcome.ok fs2
      ∧ (∀ e ∈ [([ARCHIVE_NAME, "a.lib"], "AA"), ([ARCHIVE_NAME, "tag.txt"], "T")],
          ((["D"] : FsPath) ++ e.1.drop 1, e.2) ∈ fs2)
      ∧ readDirNames ((["D"] : FsPath) ++ [ARCHIVE_NAME]) fs2 = [] :=
  C4_unpack_flattens _ _ _ (by decide) (by decide) (by decide) (by decide)
    (by decide)

/-! ### Error surfacing in the archive codec (C5) -/

theorem renameChildren_err :
    ∀ (env : IOEnv) (src dst : FsPath) (ns : List String) (fs : FS),
      (∃ n ∈ ns, env.renameErr (src ++ [n]) (dst ++ [n]) ≠ none) →
      ∃ e, renameChildren env src dst ns fs = Outcome.err e
  | _, _, _, [], _, h => by
    obtain ⟨n, hn, _⟩ := h
    exact absurd hn (List.not_mem_nil _)
  | env, src, dst, m :: ns, fs, h => by
    obtain ⟨n, hn, hne⟩ := h
    show ∃ e, (match env.renameErr (src ++ [m]) (dst ++ [m]) with
      | some e => Outcome.err e
      | none =>
        renameChildren env src dst ns (renameFS (src ++ [m]) (dst ++ [m]) fs))
      = Outcome.err e
    rcases hm : env.renameErr (src ++ [m]) (dst ++ [m]) with _ | e
    · apply renameChildren_err env src dst ns
      rcases List.mem_cons.mp hn with rfl | hn'
      · exact absurd hm hne
      · exact ⟨n, hn', hne⟩
    · exact ⟨e, rfl⟩

/-- C5 (amended): failures of `create_dir_all`, `write_all`, the
decompress/extract step, opening `read_dir`, and `fs::rename` are surfaced
as `io::Result` errors; but failures of `fs::File::create` for `tag.txt`
or `key.txt`, and failures while reading an individual directory entry,
abort the process by panic (`unwrap`) instead. -/
theorem C5_io_error_surfacing :
    (∀ (env : IOEnv) (v k : String) (art : FsPath) (fs : FS) (e : String),
        env.createDirErr (art ++ [ARCHIVE_NAME]) = some e →
        prepare_export_directory env v k art fs = Outcome.err e)
    ∧ (∀ (env : IOEnv) (v k : String) (art : FsPath) (fs : FS) (e : String),
        env.createDirErr (art ++ [ARCHIVE_NAME]) = none →
        env.createFileErr (art ++ [ARCHIVE_NAME] ++ ["tag.txt"]) = some e →
        prepare_export_directory env v k art fs = Outcome.panicAt fs)
    ∧ (∀ (env : IOEnv) (v k : String) (art : FsPath) (fs : FS) (e : String),
        env.createDirErr (art ++ [ARCHIVE_NAME]) = none →
        env.createFileErr (art ++ [ARCHIVE_NAME] ++ ["tag.txt"]) = none →
        env.writeErr (art ++ [ARCHIVE_NAME] ++ ["tag.txt"]) = some e →
        prepare_export_directory env v k art fs = Outcome.err e)
    ∧ (∀ (env : IOEnv) (v k : String) (art : FsPath) (fs : FS) (e : String),
        env.createDirErr (art ++ [ARCHIVE_NAME]) = none →
        env.createFileErr (art ++ [ARCHIVE_NAME] ++ ["tag.txt"]) = none →
        env.writeErr (art ++ [ARCHIVE_NAME] ++ ["tag.txt"]) = none →
        env.createFileErr (art ++ [ARCHIVE_NAME] ++ ["key.txt"]) = some e →
        prepare_export_directory env v k art fs = Outcome.panicAt
          (writeFile (art ++ [ARCHIVE_NAME] ++ ["tag.txt"]) v
            (writeFile (art ++ [ARCHIVE_NAME] ++ ["tag.txt"]) "" fs)))
    ∧ (∀ (env : IOEnv) (v k : String) (art : FsPath) (fs : FS) (e : String),
        env.createDirErr (art ++ [ARCHIVE_NAME]) = none →
        env.createFileErr (art ++ [ARCHIVE_NAME] ++ ["tag.txt"]) = none →
        env.writeErr (art ++ [ARCHIVE_NAME] ++ ["tag.txt"]) = none →
        env.createFileErr (art ++ [ARCHIVE_NAME] ++ ["key.txt"]) = none →
        env.writeErr (art ++ [ARCHIVE_NAME] ++ ["key.txt"]) = some e →
        prepare_export_directory env v k art fs = Outcome.err e)
    ∧ (∀ (env : IOEnv) (archive : List (FsPath × String)) (out : FsPath)
          (fs : FS) (e : String),
        env.extractErr = some e → unpack env archive out fs = Outcome.err e)
    ∧ (∀ (env : IOEnv) (archive : List (FsPath × String)) (out : FsPath)
          (fs : FS) (e : String),
        env.extractErr = none →
        env.readDirErr (out ++ [ARCHIVE_NAME]) = some e →
        unpack env archive out fs = Outcome.err e)
    ∧ (∀ (env : IOEnv) (archive : List (FsPath × String)) (out : FsPath)
          (fs : FS),
        env.extractErr = none →
        env.readDirErr (out ++ [ARCHIVE_NAME]) = none →
        ((readDirNames (out ++ [ARCHIVE_NAME]) (extractTo archive out fs)).any
          fun n => (env.entryErr (out ++ [ARCHIVE_NAME] ++ [n])).isSome) = true →
        unpack env archive out fs = Outcome.panicAt (extractTo archive out fs))
    ∧ (∀ (env : IOEnv) (archive : List (FsPath × String)) (out : FsPath)
          (fs : FS),
        env.extractErr = none →
        env.readDirErr (out ++ [ARCHIVE_NAME]) = none →
        ((readDirNames (out ++ [ARCHIVE_NAME]) (extractTo archive out fs)).any
          fun n => (env.entryErr (out ++ [ARCHIVE_NAME] ++ [n])).isSome) = false →
        (∃ n ∈ readDirNames (out ++ [ARCHIVE_NAME]) (extractTo archive out fs),
          env.renameErr (out ++ [ARCHIVE_NAME] ++ [n]) (out ++ [n]) ≠ none) →
        ∃ e, unpack env archive out fs = Outcome.err e) := by
  refine ⟨?_, ?_, ?_, ?_, ?_, ?_, ?_, ?_, ?_⟩
  · intro env v k art fs e h1
    simp only [prepare_export_directory]
    rw [h1]
  · intro env v k art fs e h1 h2
    simp only [prepare_export_directory]
    rw [h1, h2]
  · intro env v k art fs e h1 h2 h3
    simp only [prepare_export_directory]
    rw [h1, h2, h3]
  · intro env v k art fs e h1 h2 h3 h4
    simp only [prepare_export_directory]
    rw [h1, h2, h3, h4]
  · intro env v k art fs e h1 h2 h3 h4 h5
    simp only [prepare_export_directory]
    rw [h1, h2, h3, h4, h5]
  · intro env archive out fs e h1
    simp only [unpack]
    rw [h1]
  · intro env archive out fs e h1 h2
    simp only [unpack]
    rw [h1, h2]
  · intro env archive out fs h1 h2 h3
    simp only [unpack]
    rw [h1, h2, h3]
    rfl
  · intro env archive out fs h1 h2 h3 h4
    simp only [unpack]
    rw [h1, h2, h3]
    exact renameChildren_err env _ _ _ _ h4

/-- C5 (counterexample to the claim as stated): a filesystem failure while
creating `tag.txt` makes `prepare_export_directory` abort the process
(`File::create(..).unwrap()`), not return an `Err(io::Error)`. -/
theorem C5_create_failure_panics :
    prepare_export_directory
        { noFail with createFileErr := fun _ => some "EACCES" }
        "0.0.0" "k" ["art"] [] = Outcome.panicAt []
      ∧ ∀ e, prepare_export_directory
        { noFail with createFileErr := fun _ => some "EACCES" }
        "0.0.0" "k" ["art"] [] ≠ Outcome.err e := by
  refine ⟨rfl, ?_⟩
  intro e h
  exact Outcome.noConfusion
    (show Outcome.panicAt ([] : FS) = Outcome.err e from h)

theorem C5_io_error_surfacing_witness :
    prepare_export_directory { noFail with createDirErr := fun _ => some "E1" }
        "v" "k" ["a"] [] = Outcome.err "E1"
    ∧ prepare_export_directory
        { noFail with createFileErr := fun _ => some "E2" }
        "v" "k" ["a"] [] = Outcome.panicAt []
    ∧ prepare_export_directory { noFail with writeErr := fun _ => some "E3" }
        "v" "k" ["a"] [] = Outcome.err "E3"
    ∧ prepare_export_directory
        { noFail with createFileErr := fun p =>
            if p = ["a", ARCHIVE_NAME, "key.txt"] then some "E4" else none }
        "v" "k" ["a"] []
      = Outcome.panicAt
          (writeFile ((["a"] : FsPath) ++ [ARCHIVE_NAME] ++ ["tag.txt"]) "v"
            (writeFile ((["a"] : FsPath) ++ [ARCHIVE_NAME] ++ ["tag.txt"]) "" []))
    ∧ prepare_export_directory
        { noFail with writeErr := fun p =>
            if p = ["a", ARCHIVE_NAME, "key.txt"] then some "E5" else none }
        "v" "k" ["a"] [] = Outcome.err "E5"
    ∧ unpack { noFail with extractErr := some "E6" }
        [([ARCHIVE_NAME, "f"], "x")] ["o"] [] = Outcome.err "E6"
    ∧ unpack { noFail with readDirErr := fun _ => some "E7" }
        [([ARCHIVE_NAME, "f"], "x")] ["o"] [] = Outcome.err "E7"
    ∧ unpack { noFail with entryErr := fun _ => some "E8" }
        [([ARCHIVE_NAME, "f"], "x")] ["o"] []
      = Outcome.panicAt
          (extractTo [([ARCHIVE_NAME, "f"], "x")] ["o"] [])
    ∧ ∃ e, unpack { noFail with renameErr := fun _ _ => some "E9" }
        [([ARCHIVE_NAME, "f"], "x")] ["o"] [] = Outcome.err e :=
  ⟨C5_io_error_surfacing.1 _ "v" "k" ["a"] [] "E1" rfl,
   C5_io_error_surfacing.2.1 _ "v" "k" ["a"] [] "E2" rfl rfl,
   C5_io_error_surfacing.2.2.1 _ "v" "k" ["a"] [] "E3" rfl rfl rfl,
   C5_io_error_surfacing.2.2.2.1 _ "v" "k" ["a"] [] "E4" rfl (by decide)
     rfl (by decide),
   C5_io_error_surfacing.2.2.2.2.1 _ "v" "k" ["a"] [] "E5" rfl rfl
     (by decide) rfl (by decide),
   C5_io_error_surfacing.2.2.2.2.2.1 _ _ ["o"] [] "E6" rfl,
   C5_io_error_surfacing.2.2.2.2.2.2.1 _ _ ["o"] [] "E7" rfl rfl,
   C5_io_error_surfacing.2.2.2.2.2.2.2.1 _ _ ["o"] [] rfl rfl (by decide),
   C5_io_error_surfacing.2.2.2.2.2.2.2.2 _ _ ["o"] [] rfl rfl (by decide)
     (by decide)⟩
